import Mathlib

/-!
Verification of the download-request resolution pipeline of `src/app.py`
(the `instube` Flask application).  The Python functions are shallowly
embedded as executable Lean definitions: format-string resolution,
engine-option construction, result reconciliation, preview-URL fallback,
quality labelling, filename sanitisation and URL percent-encoding.
-/

namespace Instube

/-! ## Character-list string utilities (used to inspect format expressions) -/

/-- Does `needle` occur as a leading segment of `hay`? -/
def matchesAt : List Char → List Char → Bool
  | [], _ => true
  | _ :: _, [] => false
  | a :: as, b :: bs => a == b && matchesAt as bs

/-- Does `needle` occur as a contiguous subsequence of the second list? -/
def containsSub (needle : List Char) : List Char → Bool
  | [] => needle.isEmpty
  | c :: cs => matchesAt needle (c :: cs) || containsSub needle cs

/-- Split a character list on the separator `/`: auxiliary with accumulator. -/
def splitSlashAux : List Char → List Char → List (List Char)
  | [], acc => [acc.reverse]
  | c :: cs, acc =>
      if c == '/' then acc.reverse :: splitSlashAux cs []
      else splitSlashAux cs (c :: acc)

/-- The fallback alternatives of a yt-dlp format expression: the segments
separated by `/`. -/
def alternativesOf (s : String) : List (List Char) :=
  splitSlashAux s.data []

/-- `strSuffix suf s` models Python `s.endswith(suf)`. -/
def strSuffix (suf s : String) : Bool :=
  matchesAt suf.data.reverse s.data.reverse

/-! ## Format resolver (`download_with_yt_dlp`, src/app.py lines 56-86) -/

/-- The format selection expression chosen by `download_with_yt_dlp` from the
requested media type, quality selection and ffmpeg availability
(src/app.py lines 56-86).  `none` models a missing JSON field. -/
def format_str (media_type format_type : Option String) (use_ffmpeg : Bool) : String :=
  if media_type == some "audio" then
    if format_type == some "320kbps" then
      "bestaudio[ext=mp3]/bestaudio/best"
    else if format_type == some "128kbps" then
      "worstaudio[ext=mp3]/worstaudio/best"
    else
      "bestaudio[ext=mp3]/bestaudio/best"
  else
    if format_type == some "1080p" then
      if use_ffmpeg then
        "bestvideo[height<=1080][ext=mp4][vcodec^=avc1]+bestaudio/best[height<=1080][ext=mp4]/best[height<=1080]"
      else
        "best[height<=1080][ext=mp4][acodec!=none]/best[height<=1080][acodec!=none]"
    else if format_type == some "720p" then
      if use_ffmpeg then
        "bestvideo[height<=720][ext=mp4][vcodec^=avc1]+bestaudio/best[height<=720][ext=mp4]/best[height<=720]"
      else
        "best[height<=720][ext=mp4][acodec!=none]/best[height<=720][acodec!=none]"
    else if format_type == some "480p" then
      if use_ffmpeg then
        "bestvideo[height<=480][ext=mp4][vcodec^=avc1]+bestaudio/best[height<=480][ext=mp4]/best[height<=480]"
      else
        "best[height<=480][ext=mp4][acodec!=none]/best[height<=480][acodec!=none]"
    else
      if use_ffmpeg then "bestvideo+bestaudio/best"
      else "best[acodec!=none]/best"

/-! ## Engine options (`ydl_opts`, src/app.py lines 94-138) -/

/-- The option dictionary handed to the extraction engine
(src/app.py lines 94-114). -/
structure YdlOpts where
  format : String
  outtmpl : String
  quiet : Bool
  noplaylist : Bool
  prefer_ffmpeg : Option Bool
  no_warnings : Bool
  extract_flat : Bool
  writeinfojson : Bool
  writesubtitles : Bool
  writeautomaticsub : Bool
  ignoreerrors : Bool
  no_check_certificate : Bool
  prefer_insecure : Bool
  skip_unavailable_fragments : Bool
  keep_fragments : Bool
  merge_output_format : Option String
  postprocessor_args : Option (List String)

/-- Construction of `ydl_opts` in `download_with_yt_dlp`
(src/app.py lines 94-138): the base dictionary, then the
`if use_ffmpeg` update (post-processing directives) or, without ffmpeg,
removal of the `prefer_ffmpeg` key. -/
def build_ydl_opts (media_type format_type : Option String) (use_ffmpeg : Bool) : YdlOpts :=
  let base : YdlOpts := {
    format := format_str media_type format_type use_ffmpeg
    outtmpl := "static/downloads/%(title)s.%(ext)s"
    quiet := true
    noplaylist := true
    prefer_ffmpeg := some use_ffmpeg
    no_warnings := true
    extract_flat := false
    writeinfojson := false
    writesubtitles := false
    writeautomaticsub := false
    ignoreerrors := false
    no_check_certificate := true
    prefer_insecure := false
    skip_unavailable_fragments := true
    keep_fragments := false
    merge_output_format := none
    postprocessor_args := none }
  if use_ffmpeg then
    if media_type == some "audio" then
      { base with
        merge_output_format := some "mp3"
        postprocessor_args := some ["-c:a", "libmp3lame", "-b:a",
          if format_type == some "320kbps" then "320k" else "128k"] }
    else
      { base with merge_output_format := some "mkv" }
  else
    { base with prefer_ffmpeg := none }

/-! ## Result reconciler (`download_with_yt_dlp`, src/app.py lines 146-170) -/

/-- A file in the downloads directory: its name and creation timestamp
(`os.path.getctime`). -/
structure DirEntry where
  name : String
  ctime : Nat
deriving DecidableEq

/-- Audio container extensions scanned by the reconciler (src/app.py line 155). -/
def audioExtensions : List String := [".mp3", ".m4a", ".ogg"]

/-- Video container extensions scanned by the reconciler (src/app.py line 163). -/
def videoExtensions : List String := [".mp4", ".webm", ".mkv"]

/-- The extension set used for the fallback scan, chosen by media kind. -/
def extensionsFor (media_type : Option String) : List String :=
  if media_type == some "audio" then audioExtensions else videoExtensions

/-- Does a file name match the media-kind extension set
(Python `f.endswith((...))`)? -/
def matchesKind (media_type : Option String) (fname : String) : Bool :=
  (extensionsFor media_type).any (fun e => strSuffix e fname)

/-- The candidate files of the fallback scan: directory entries whose name
ends with one of the media-kind extensions (src/app.py lines 155 and 163). -/
def candidateFiles (media_type : Option String) (dir : List DirEntry) : List DirEntry :=
  dir.filter (fun f => matchesKind media_type f.name)

/-- Head of a stable sort by creation time, newest first: the earliest entry
with maximal `ctime` (Python `sort(key=getctime, reverse=True)` then `[0]`,
src/app.py lines 158 and 166). -/
def newestFirst : List DirEntry → Option DirEntry
  | [] => none
  | e :: es =>
      match newestFirst es with
      | none => some e
      | some b => if b.ctime ≤ e.ctime then some e else some b

/-- The result reconciliation of `download_with_yt_dlp`
(src/app.py lines 148-170): if the expected name exists in the output
directory it is kept; otherwise the newest file matching the media-kind
extension set is substituted when one exists, else the expected name is
kept unchanged. -/
def reconcile (expected : String) (media_type : Option String) (dir : List DirEntry) : String :=
  if dir.any (fun f => f.name == expected) then expected
  else
    match newestFirst (candidateFiles media_type dir) with
    | some b => b.name
    | none => expected

/-! ## Warning fields (`download_with_yt_dlp` lines 183-195, `download_video`
lines 377-381) -/

/-- `orEmpty` models Python `(x or "")` for an optional string. -/
def orEmpty : Option String → String
  | some s => s
  | none => ""

/-- ASCII lower-casing of one character, as Python `str.lower` acts on the
ASCII codec and container names handled here. -/
def lowerChar (c : Char) : Char :=
  if 65 ≤ c.toNat ∧ c.toNat ≤ 90 then Char.ofNat (c.toNat + 32) else c

/-- ASCII lower-casing of a string (Python `.lower()`). -/
def lowerStr (s : String) : String :=
  String.mk (s.data.map lowerChar)

/-- The `audio_note` field of the result (src/app.py line 183). -/
def audio_note (use_ffmpeg : Bool) : String :=
  if use_ffmpeg then "merged mkv (bestvideo+bestaudio)" else "progressive (no merge)"

/-- Whether `download_with_yt_dlp` puts a `warning` key in its result
(src/app.py lines 187-194): only without ffmpeg and when the produced audio
codec, lower-cased, is opus or vorbis. -/
def download_result_warning (use_ffmpeg : Bool) (acodec : Option String) : Bool :=
  if use_ffmpeg then false
  else
    let a := lowerStr (orEmpty acodec)
    a == "opus" || a == "vorbis"

/-- Whether the `/api/download` response carries a `warning` field: either the
engine-level warning, or the route-level condition
`audio_note != "mp3" and media_type == "audio"` (src/app.py lines 377-380). -/
def api_response_has_warning (use_ffmpeg : Bool) (media_type acodec : Option String) : Bool :=
  download_result_warning use_ffmpeg acodec ||
    (!(audio_note use_ffmpeg == "mp3") && media_type == some "audio")

/-! ## Preview resolver (`extract_info_no_download`, src/app.py lines 215-268) -/

/-- A format entry of the engine metadata; `none` models a missing key. -/
structure Fmt where
  url : Option String
  vcodec : Option String
  acodec : Option String
  ext : Option String

/-- The pieces of the engine metadata that preview-URL selection reads. -/
structure Info where
  url : Option String
  requested_formats : List Fmt
  formats : List Fmt

/-- Python truthiness of an optional string: absent or empty is falsy. -/
def truthyS : Option String → Bool
  | none => false
  | some s => !(s == "")

/-- First format matching `p`, returning its url: models the `for`/`break`
scan loops of `extract_info_no_download`. -/
def findUrlBy (p : Fmt → Bool) : List Fmt → Option String
  | [] => none
  | f :: rest => if p f then f.url else findUrlBy p rest

/-- Tier-2 condition (src/app.py line 228): url truthy, vcodec and acodec not
the marker "none". -/
def isCombinedRequested (f : Fmt) : Bool :=
  truthyS f.url && !(f.vcodec == some "none") && !(f.acodec == some "none")

/-- Tier-3 condition (src/app.py line 237): url truthy, vcodec not "none". -/
def isVideoRequested (f : Fmt) : Bool :=
  truthyS f.url && !(f.vcodec == some "none")

/-- Tier-4 condition (src/app.py lines 250-253): both codecs, url truthy, and
extension (lower-cased) mp4 or webm. -/
def isProgressiveFmt (f : Fmt) : Bool :=
  !(f.vcodec == some "none") && !(f.acodec == some "none") && truthyS f.url &&
    (lowerStr (orEmpty f.ext) == "mp4" || lowerStr (orEmpty f.ext) == "webm")

/-- Tier-5 condition (src/app.py lines 263-265): vcodec not "none" and url
truthy. -/
def isAnyVideoFmt (f : Fmt) : Bool :=
  !(f.vcodec == some "none") && truthyS f.url

/-- The preview-URL computation of `extract_info_no_download`
(src/app.py lines 216-268): the top-level url, then two scans over
`requested_formats` (each only while the current value is falsy), then two
scans over `formats`. -/
def resolve_preview_url (info : Info) : Option String :=
  let p0 := info.url
  let p1 :=
    if !truthyS p0 && !info.requested_formats.isEmpty then
      match findUrlBy isCombinedRequested info.requested_formats with
      | some u => some u
      | none =>
          match findUrlBy isVideoRequested info.requested_formats with
          | some u => some u
          | none => p0
    else p0
  if !truthyS p1 then
    match findUrlBy isProgressiveFmt info.formats with
    | some u => some u
    | none =>
        match findUrlBy isAnyVideoFmt info.formats with
        | some u => some u
        | none => p1
  else p1

/-- Normalise a Python-falsy URL value (absent or empty) to `none`. -/
def normTruthy (p : Option String) : Option String :=
  if truthyS p then p else none

/-- The first tier that yields something. -/
def firstSome : List (Option String) → Option String
  | [] => none
  | some u :: _ => some u
  | none :: rest => firstSome rest

/-- The five-tier preview selection order as the spec words it: a flat
priority list, each tier consulted only if every earlier tier yields
nothing. -/
def spec_preview_url (info : Info) : Option String :=
  firstSome
    [normTruthy info.url,
     findUrlBy isCombinedRequested info.requested_formats,
     findUrlBy isVideoRequested info.requested_formats,
     findUrlBy isProgressiveFmt info.formats,
     findUrlBy isAnyVideoFmt info.formats]

/-- Metadata with no top-level url, no requested formats, and a formats list
holding an audio-only entry before a combined-codec webm entry. -/
def previewExample : Info :=
  Info.mk none []
    [Fmt.mk (some "https://cdn.example/audio-only") (some "none") (some "opus") (some "webm"),
     Fmt.mk (some "https://cdn.example/combined") (some "vp9") (some "opus") (some "webm")]

/-! ## Quality label (`_quality_label`, src/app.py lines 299-314) -/

/-- The height-to-label mapping `_quality_label` of
`extract_info_no_download` (src/app.py lines 299-314): `none` models Python
`None`, and Python `not height` is true for a missing or zero height. -/
def _quality_label : Option Int → Option String
  | none => none
  | some h =>
    if h == 0 then none
    else if 4320 ≤ h then some "8K"
    else if 2160 ≤ h then some "4K"
    else if 1440 ≤ h then some "2K"
    else if 1080 ≤ h then some "FHD"
    else if 720 ≤ h then some "HD"
    else if 480 ≤ h then some "SD"
    else some (toString h ++ "p")

/-- The fixed threshold table of the spec, highest tier first. -/
def tierTable : List (Int × String) :=
  [(4320, "8K"), (2160, "4K"), (1440, "2K"), (1080, "FHD"), (720, "HD"), (480, "SD")]

/-- First table row whose threshold the height reaches. -/
def lookupTier : List (Int × String) → Int → Option String
  | [], _ => none
  | t :: rest, h => if t.1 ≤ h then some t.2 else lookupTier rest h

/-- The quality-label mapping as the spec words it: the fixed thresholds tried
from 8K down, else the literal "heightp"; absent for height 0 or missing. -/
def spec_quality_label : Option Int → Option String
  | none => none
  | some h =>
    if h = 0 then none
    else some ((lookupTier tierTable h).getD (toString h ++ "p"))

/-! ## URL percent-encoding (`urllib.parse.quote` at src/app.py lines 173 and
376, `urllib.parse.unquote` at line 341), modelled on the UTF-8 byte
sequence of the filename -/

/-- Bytes `urllib.parse.quote` leaves unescaped with its default `safe="/"`:
ASCII digits, letters, `-`, `.`, `_`, `~` and `/`. -/
def quoteSafe (b : Nat) : Bool :=
  (decide (48 ≤ b) && decide (b ≤ 57)) ||
  (decide (65 ≤ b) && decide (b ≤ 90)) ||
  (decide (97 ≤ b) && decide (b ≤ 122)) ||
  b == 45 || b == 46 || b == 95 || b == 126 || b == 47

/-- Upper-case hexadecimal digit for a value below 16. -/
def hexDigitChar (n : Nat) : Char :=
  if n < 10 then Char.ofNat (48 + n) else Char.ofNat (55 + n)

/-- Percent-encoding of one byte: kept verbatim when safe, else `%HH`. -/
def quoteByte (b : Nat) : List Char :=
  if quoteSafe b then [Char.ofNat b]
  else ['%', hexDigitChar (b / 16), hexDigitChar (b % 16)]

/-- `urllib.parse.quote` over a byte sequence. -/
def quoteBytes : List Nat → List Char
  | [] => []
  | b :: bs => quoteByte b ++ quoteBytes bs

/-- Is the character a hexadecimal digit (either case)? -/
def isHexChar (c : Char) : Bool :=
  (decide (48 ≤ c.toNat) && decide (c.toNat ≤ 57)) ||
  (decide (65 ≤ c.toNat) && decide (c.toNat ≤ 70)) ||
  (decide (97 ≤ c.toNat) && decide (c.toNat ≤ 102))

/-- Value of a hexadecimal digit character. -/
def hexCharVal (c : Char) : Nat :=
  if c.toNat ≤ 57 then c.toNat - 48
  else if c.toNat ≤ 70 then c.toNat - 55
  else c.toNat - 87

/-- `urllib.parse.unquote` to a byte sequence: each `%` followed by two hex
digits decodes to a byte, an invalid `%` stays literal, other characters map
to their code. -/
def unquoteBytes : List Char → List Nat
  | [] => []
  | c :: rest =>
      if c == '%' then
        match rest with
        | a :: b :: rest2 =>
            if isHexChar a && isHexChar b then
              (hexCharVal a * 16 + hexCharVal b) :: unquoteBytes rest2
            else 37 :: unquoteBytes (a :: b :: rest2)
        | other => 37 :: unquoteBytes other
      else c.toNat :: unquoteBytes rest
termination_by l => l.length
decreasing_by all_goals simp <;> omega

/-- The URL path segment the download route builds for the reconciled
filename (src/app.py lines 173 and 376). -/
def encoded_download_segment (filenameBytes : List Nat) : List Char :=
  quoteBytes filenameBytes

/-- The filename the serving route looks up on disk: the percent-decoded path
segment (src/app.py line 341). -/
def served_filename (seg : List Char) : List Nat :=
  unquoteBytes seg

/-! ## Filename sanitiser (`sanitize_filename`, src/app.py lines 26-35) -/

/-- ASCII whitespace, as Python `str.rstrip()` and `str.split()` treat it. -/
def pySpace (c : Char) : Bool :=
  c == ' ' || c == '\t' || c == '\n' || c == '\r' || c == '\x0b' || c == '\x0c'

/-- The character filter of `sanitize_filename` (src/app.py line 29): keep
alphanumerics and space, dot, underscore, hyphen. -/
def keepChar (c : Char) : Bool :=
  c.isAlphanum || c == ' ' || c == '.' || c == '_' || c == '-'

/-- Python `str.rstrip()`: drop trailing whitespace. -/
def rstripChars (l : List Char) : List Char :=
  (l.reverse.dropWhile pySpace).reverse

/-- Auxiliary of `splitWords`: the current word is accumulated reversed. -/
def wordsAux : List Char → List Char → List (List Char)
  | [], acc => if acc.isEmpty then [] else [acc.reverse]
  | c :: cs, acc =>
      if pySpace c then
        if acc.isEmpty then wordsAux cs [] else acc.reverse :: wordsAux cs []
      else wordsAux cs (c :: acc)

/-- Python `str.split()`: the maximal whitespace-free words. -/
def splitWords (l : List Char) : List (List Char) :=
  wordsAux l []

/-- Python `' '.join(words)`. -/
def joinWords : List (List Char) → List Char
  | [] => []
  | [w] => w
  | w :: ws => w ++ ' ' :: joinWords ws

/-- The sanitised name before the length cut: filter, rstrip, then collapse
whitespace runs via split/join (src/app.py lines 29-31). -/
def sanitizedCore (name : List Char) : List Char :=
  joinWords (splitWords (rstripChars (name.filter keepChar)))

/-- `sanitize_filename` (src/app.py lines 26-35) on the character list of the
title: the sanitised core, truncated to 197 characters plus "..." when it
exceeds 200 characters. -/
def sanitize_filename (name : List Char) : List Char :=
  let safe := sanitizedCore name
  if 200 < safe.length then safe.take 197 ++ ['.', '.', '.'] else safe

/-- No two consecutive spaces occur. -/
def noDoubleSpace : List Char → Bool
  | a :: b :: rest => !(a == ' ' && b == ' ') && noDoubleSpace (b :: rest)
  | _ => true

/-- The first character, if any, is not a space. -/
def headNotSpace : List Char → Bool
  | [] => true
  | c :: _ => !(c == ' ')

/-- The last character, if any, is not a space. -/
def lastNotSpace (l : List Char) : Bool :=
  headNotSpace l.reverse

end Instube

namespace Instube

/-! ## Theorems -/

/-- Every element `newestFirst` returns is a member of the list and has
maximal creation time in it. -/
theorem newestFirst_spec (l : List DirEntry) (h : l ≠ []) :
    ∃ w, newestFirst l = some w ∧ w ∈ l ∧ ∀ c ∈ l, c.ctime ≤ w.ctime := by
  induction l with
  | nil => exact absurd rfl h
  | cons e es ih =>
    cases es with
    | nil =>
      refine ⟨e, ?_, List.mem_singleton.mpr rfl, ?_⟩
      · simp [newestFirst]
      · intro c hc
        rw [List.mem_singleton] at hc
        exact hc ▸ le_refl _
    | cons f fs =>
      obtain ⟨w, hw, hmem, hmax⟩ := ih (by simp)
      by_cases hle : w.ctime ≤ e.ctime
      · refine ⟨e, ?_, List.mem_cons_self _ _, ?_⟩
        · rw [newestFirst, hw]
          simp [hle]
        · intro c hc
          rcases List.mem_cons.mp hc with rfl | hc
          · exact le_refl _
          · exact (hmax c hc).trans hle
      · refine ⟨w, ?_, List.mem_cons_of_mem _ hmem, ?_⟩
        · rw [newestFirst, hw]
          simp [hle]
        · intro c hc
          rcases List.mem_cons.mp hc with rfl | hc
          · exact le_of_not_le hle
          · exact hmax c hc

/-- C1: for every video-kind request with quality tier 1080p, 720p or 480p and
ffmpeg available, every fallback alternative of the resolved format
expression contains the height filter `[height<=tier]`, so no alternative can
select a stream taller than the requested tier. -/
theorem C1_format_height_capped (tier limit : String)
    (h : (tier, limit) ∈ [("1080p", "1080"), ("720p", "720"), ("480p", "480")]) :
    ∀ alt ∈ alternativesOf (format_str (some "video") (some tier) true),
      containsSub ("[height<=".data ++ limit.data ++ "]".data) alt = true := by
  fin_cases h <;> decide

/-- Witness for C1 at the 1080p tier. -/
theorem C1_format_height_capped_witness :
    (("1080p", "1080") ∈ [("1080p", "1080"), ("720p", "720"), ("480p", "480")]) ∧
    ∀ alt ∈ alternativesOf (format_str (some "video") (some "1080p") true),
      containsSub ("[height<=".data ++ "1080".data ++ "]".data) alt = true :=
  ⟨by decide, C1_format_height_capped "1080p" "1080" (by decide)⟩

/-- C6: when ffmpeg is unavailable, the built engine options carry no
post-processing directives: no postprocessor arguments and no forced
merge/output container. -/
theorem C6_no_postprocessing (media_type format_type : Option String) :
    (build_ydl_opts media_type format_type false).postprocessor_args = none ∧
    (build_ydl_opts media_type format_type false).merge_output_format = none :=
  ⟨rfl, rfl⟩

/-- C7: when the expected filename is present in the output directory, the
reconciler returns it unchanged. -/
theorem C7_reconcile_existing (expected : String) (media_type : Option String)
    (dir : List DirEntry) (h : dir.any (fun f => f.name == expected) = true) :
    reconcile expected media_type dir = expected := by
  simp only [reconcile, h, if_true]

/-- Witness for C7: a directory containing exactly the expected video file. -/
theorem C7_reconcile_existing_witness :
    ([DirEntry.mk "video.mp4" 5].any (fun f => f.name == "video.mp4") = true) ∧
    reconcile "video.mp4" (some "video") [DirEntry.mk "video.mp4" 5] = "video.mp4" :=
  ⟨by decide, C7_reconcile_existing "video.mp4" (some "video") [DirEntry.mk "video.mp4" 5]
    (by decide)⟩

/-- C2: when the expected filename is absent from the output directory, the
reconciler returns the expected name unchanged if no file matches the
media-kind extension set, and otherwise returns the name of a matching file
of maximal creation time. -/
theorem C2_reconcile_fallback (expected : String) (media_type : Option String)
    (dir : List DirEntry)
    (habs : dir.all (fun f => !(f.name == expected)) = true) :
    (candidateFiles media_type dir = [] →
      reconcile expected media_type dir = expected) ∧
    (candidateFiles media_type dir ≠ [] →
      ∃ w ∈ candidateFiles media_type dir,
        reconcile expected media_type dir = w.name ∧
        ∀ c ∈ candidateFiles media_type dir, c.ctime ≤ w.ctime) := by
  have hany : dir.any (fun f => f.name == expected) = false := by
    rw [List.any_eq_false]
    intro f hf
    have := (List.all_eq_true.mp habs) f hf
    simpa using this
  constructor
  · intro hempty
    simp only [reconcile, hany, Bool.false_eq_true, if_false, hempty, newestFirst]
  · intro hne
    obtain ⟨w, hw, hmem, hmax⟩ := newestFirst_spec _ hne
    refine ⟨w, hmem, ?_, hmax⟩
    simp only [reconcile, hany, Bool.false_eq_true, if_false, hw]

/-- Witness for C2: the expected audio file is absent; of the two audio files
present, the one with the later creation time is substituted. -/
theorem C2_reconcile_fallback_witness :
    ([DirEntry.mk "a.mp3" 3, DirEntry.mk "b.mp3" 9].all
        (fun f => !(f.name == "song.mp3")) = true) ∧
    ((candidateFiles (some "audio") [DirEntry.mk "a.mp3" 3, DirEntry.mk "b.mp3" 9] = [] →
        reconcile "song.mp3" (some "audio")
          [DirEntry.mk "a.mp3" 3, DirEntry.mk "b.mp3" 9] = "song.mp3") ∧
     (candidateFiles (some "audio") [DirEntry.mk "a.mp3" 3, DirEntry.mk "b.mp3" 9] ≠ [] →
        ∃ w ∈ candidateFiles (some "audio") [DirEntry.mk "a.mp3" 3, DirEntry.mk "b.mp3" 9],
          reconcile "song.mp3" (some "audio")
            [DirEntry.mk "a.mp3" 3, DirEntry.mk "b.mp3" 9] = w.name ∧
          ∀ c ∈ candidateFiles (some "audio") [DirEntry.mk "a.mp3" 3, DirEntry.mk "b.mp3" 9],
            c.ctime ≤ w.ctime)) :=
  ⟨by decide, C2_reconcile_fallback "song.mp3" (some "audio")
    [DirEntry.mk "a.mp3" 3, DirEntry.mk "b.mp3" 9] (by decide)⟩

/-- C3: code-bug evidence — with ffmpeg present, an audio-kind request whose
produced codec is plain AAC still gets a `warning` in the response, because
`audio_note` is never the string "mp3"; the claim (and the spec) say the
response never carries a warning when the transcoder is present. -/
theorem C3_warning_despite_ffmpeg :
    api_response_has_warning true (some "audio") (some "aac") = true := by decide

/-- A url returned by `findUrlBy` is truthy whenever the predicate only
accepts formats with a truthy url. -/
theorem findUrlBy_truthy (p : Fmt → Bool) (hp : ∀ f, p f = true → truthyS f.url = true)
    (l : List Fmt) (u : String) (h : findUrlBy p l = some u) :
    truthyS (some u) = true := by
  induction l with
  | nil => simp [findUrlBy] at h
  | cons f rest ih =>
    rw [findUrlBy] at h
    by_cases hpf : p f = true
    · rw [if_pos hpf] at h
      exact h ▸ hp f hpf
    · rw [if_neg hpf] at h
      exact ih h

/-- The tier-2 condition requires a truthy url. -/
theorem isCombinedRequested_url (f : Fmt) (h : isCombinedRequested f = true) :
    truthyS f.url = true := by
  simp only [isCombinedRequested, Bool.and_eq_true] at h
  exact h.1.1

/-- The tier-3 condition requires a truthy url. -/
theorem isVideoRequested_url (f : Fmt) (h : isVideoRequested f = true) :
    truthyS f.url = true := by
  simp only [isVideoRequested, Bool.and_eq_true] at h
  exact h.1

/-- The tier-4 condition requires a truthy url. -/
theorem isProgressiveFmt_url (f : Fmt) (h : isProgressiveFmt f = true) :
    truthyS f.url = true := by
  simp only [isProgressiveFmt, Bool.and_eq_true] at h
  exact h.1.2

/-- The tier-5 condition requires a truthy url. -/
theorem isAnyVideoFmt_url (f : Fmt) (h : isAnyVideoFmt f = true) :
    truthyS f.url = true := by
  simp only [isAnyVideoFmt, Bool.and_eq_true] at h
  exact h.2

/-- A successful `findUrlBy` needs a non-empty list. -/
theorem findUrlBy_ne_nil (p : Fmt → Bool) (l : List Fmt) (u : String)
    (h : findUrlBy p l = some u) : l.isEmpty = false := by
  cases l with
  | nil => simp [findUrlBy] at h
  | cons f rest => rfl

/-- The nested conditional structure of `resolve_preview_url` computes exactly
the spec's flat five-tier priority, once a Python-falsy final value is
normalised to `none`. -/
theorem preview_equiv (info : Info) :
    normTruthy (resolve_preview_url info) = spec_preview_url info := by
  obtain ⟨u0, rf, fs⟩ := info
  cases h0 : truthyS u0 with
  | true =>
    cases u0 with
    | none => simp [truthyS] at h0
    | some s =>
      simp [resolve_preview_url, spec_preview_url, h0, normTruthy, firstSome]
  | false =>
    cases h2 : findUrlBy isCombinedRequested rf with
    | some u =>
      have hne := findUrlBy_ne_nil _ _ _ h2
      have ht := findUrlBy_truthy _ isCombinedRequested_url _ _ h2
      simp [resolve_preview_url, spec_preview_url, h0, h2, hne, ht, normTruthy, firstSome]
    | none =>
      cases h3 : findUrlBy isVideoRequested rf with
      | some u =>
        have hne := findUrlBy_ne_nil _ _ _ h3
        have ht := findUrlBy_truthy _ isVideoRequested_url _ _ h3
        simp [resolve_preview_url, spec_preview_url, h0, h2, h3, hne, ht, normTruthy,
          firstSome]
      | none =>
        cases h4 : findUrlBy isProgressiveFmt fs with
        | some u =>
          have ht := findUrlBy_truthy _ isProgressiveFmt_url _ _ h4
          simp [resolve_preview_url, spec_preview_url, h0, h2, h3, h4, ht, normTruthy,
            firstSome]
        | none =>
          cases h5 : findUrlBy isAnyVideoFmt fs with
          | some u =>
            have ht := findUrlBy_truthy _ isAnyVideoFmt_url _ _ h5
            simp [resolve_preview_url, spec_preview_url, h0, h2, h3, h4, h5, ht, normTruthy,
              firstSome]
          | none =>
            simp [resolve_preview_url, spec_preview_url, h0, h2, h3, h4, h5, normTruthy,
              firstSome]

/-- C4: the preview URL follows exactly the five-tier priority the spec lists
(each tier consulted only when every earlier one yields nothing); in
particular, on a metadata result with no top-level url and no requested
formats, a combined-codec webm entry is chosen over an earlier audio-only
entry. -/
theorem C4_preview_tier_order :
    (∀ info : Info, normTruthy (resolve_preview_url info) = spec_preview_url info) ∧
    resolve_preview_url previewExample = some "https://cdn.example/combined" := by
  refine ⟨preview_equiv, ?_⟩
  decide

/-- C5: the user-facing quality label follows the fixed thresholds
8K≥4320, 4K≥2160, 2K≥1440, FHD≥1080, HD≥720, SD≥480, else the literal
"heightp", and is absent for a missing or zero height. -/
theorem C5_quality_label_thresholds (h : Option Int) :
    _quality_label h = spec_quality_label h := by
  cases h with
  | none => rfl
  | some n =>
    simp only [_quality_label, spec_quality_label, tierTable, lookupTier, beq_iff_eq]
    split_ifs <;> simp

/-- C8 counterexample: the code maps height 2159 to "2K", so the claim that
the label for 2159 is not "2K" is false. -/
theorem C8_counterexample_2159 : ¬ (_quality_label (some 2159) ≠ some "2K") := by
  decide

/-- C8 (amended): height 2159 is labelled "2K" — it is below the 2160
threshold for "4K" but reaches the 1440 threshold for "2K". -/
theorem C8_label_2159_is_2K :
    _quality_label (some 2159) = some "2K" ∧ _quality_label (some 2159) ≠ some "4K" := by
  decide

set_option maxRecDepth 4096 in
/-- A safe byte survives quoting verbatim: its character is not `%` and its
code is the byte back (checked over all 256 bytes). -/
theorem quote_safe_char_fin : ∀ b : Fin 256, quoteSafe b.val = true →
    ((Char.ofNat b.val == '%') = false ∧ (Char.ofNat b.val).toNat = b.val) := by
  decide

set_option maxRecDepth 4096 in
/-- The two hex digits of a byte are hex characters and decode to the byte
(checked over all 256 bytes). -/
theorem hex_roundtrip_fin : ∀ b : Fin 256,
    isHexChar (hexDigitChar (b.val / 16)) = true ∧
    isHexChar (hexDigitChar (b.val % 16)) = true ∧
    hexCharVal (hexDigitChar (b.val / 16)) * 16 + hexCharVal (hexDigitChar (b.val % 16))
      = b.val := by
  decide

/-- Unfolding `unquoteBytes` on a non-percent head character. -/
theorem unquoteBytes_not_pct (c : Char) (rest : List Char) (h : (c == '%') = false) :
    unquoteBytes (c :: rest) = c.toNat :: unquoteBytes rest := by
  rw [unquoteBytes.eq_def]
  simp [h]

/-- Unfolding `unquoteBytes` on a percent escape with two hex digits. -/
theorem unquoteBytes_pct_hex (a b : Char) (rest2 : List Char)
    (ha : isHexChar a = true) (hb : isHexChar b = true) :
    unquoteBytes ('%' :: a :: b :: rest2) =
      (hexCharVal a * 16 + hexCharVal b) :: unquoteBytes rest2 := by
  rw [unquoteBytes.eq_def]
  simp [ha, hb]

/-- `quote_safe_char_fin` restated over `Nat`. -/
theorem quote_safe_char (b : Nat) (hb : b < 256) (h : quoteSafe b = true) :
    (Char.ofNat b == '%') = false ∧ (Char.ofNat b).toNat = b :=
  quote_safe_char_fin ⟨b, hb⟩ h

/-- `hex_roundtrip_fin` restated over `Nat`. -/
theorem hex_roundtrip (b : Nat) (hb : b < 256) :
    isHexChar (hexDigitChar (b / 16)) = true ∧
    isHexChar (hexDigitChar (b % 16)) = true ∧
    hexCharVal (hexDigitChar (b / 16)) * 16 + hexCharVal (hexDigitChar (b % 16)) = b :=
  hex_roundtrip_fin ⟨b, hb⟩

/-- Percent-decoding inverts percent-encoding on every byte sequence. -/
theorem unquote_quote (bs : List Nat) (h : ∀ b ∈ bs, b < 256) :
    unquoteBytes (quoteBytes bs) = bs := by
  induction bs with
  | nil =>
    rw [quoteBytes, unquoteBytes.eq_def]
  | cons b rest ih =>
    have hb : b < 256 := h b (List.mem_cons_self _ _)
    have hrest : ∀ x ∈ rest, x < 256 := fun x hx => h x (List.mem_cons_of_mem _ hx)
    rw [quoteBytes]
    cases hsafe : quoteSafe b with
    | true =>
      obtain ⟨hpc, htn⟩ := quote_safe_char b hb hsafe
      rw [quoteByte, if_pos hsafe, List.singleton_append,
        unquoteBytes_not_pct _ _ hpc, htn, ih hrest]
    | false =>
      obtain ⟨hh1, hh2, hv⟩ := hex_roundtrip b hb
      rw [quoteByte, if_neg (by simp [hsafe]), List.cons_append, List.cons_append,
        List.cons_append, List.nil_append,
        unquoteBytes_pct_hex _ _ _ hh1 hh2, hv, ih hrest]

/-- C9: percent-decoding the percent-encoded reconciled filename returns
exactly the filename's bytes, so the response URL refers to exactly the
reconciled file. -/
theorem C9_url_roundtrip (fn : List Nat) (h : ∀ b ∈ fn, b < 256) :
    served_filename (encoded_download_segment fn) = fn :=
  unquote_quote fn h

/-- Witness for C9 on the bytes of "My Video (1080p).mp4": spaces and
parentheses are escaped, letters and digits kept. -/
theorem C9_url_roundtrip_witness :
    (∀ b ∈ [77, 121, 32, 86, 105, 100, 101, 111, 32, 40, 49, 48, 56, 48, 112, 41, 46,
        109, 112, 52], b < 256) ∧
    served_filename (encoded_download_segment
        [77, 121, 32, 86, 105, 100, 101, 111, 32, 40, 49, 48, 56, 48, 112, 41, 46,
          109, 112, 52]) =
      [77, 121, 32, 86, 105, 100, 101, 111, 32, 40, 49, 48, 56, 48, 112, 41, 46,
        109, 112, 52] :=
  ⟨by decide, C9_url_roundtrip _ (by decide)⟩

/-- A character that is not whitespace is in particular not a space. -/
theorem not_space_char (c : Char) (h : pySpace c = false) : (c == ' ') = false := by
  rw [beq_eq_false_iff_ne]
  intro hc
  subst hc
  simp [pySpace] at h

/-- Characters of `wordsAux` output come from the scanned list or the
accumulator. -/
theorem mem_wordsAux (l : List Char) : ∀ acc w, w ∈ wordsAux l acc →
    ∀ c ∈ w, c ∈ l ∨ c ∈ acc := by
  induction l with
  | nil =>
    intro acc w hw c hc
    simp only [wordsAux] at hw
    by_cases hacc : acc.isEmpty = true
    · simp [hacc] at hw
    · rw [if_neg hacc, List.mem_singleton] at hw
      subst hw
      exact Or.inr (List.mem_reverse.mp hc)
  | cons x xs ih =>
    intro acc w hw c hc
    simp only [wordsAux] at hw
    by_cases hx : pySpace x = true
    · rw [if_pos hx] at hw
      by_cases hacc : acc.isEmpty = true
      · rw [if_pos hacc] at hw
        rcases ih [] w hw c hc with h | h
        · exact Or.inl (List.mem_cons_of_mem _ h)
        · simp at h
      · rw [if_neg hacc] at hw
        rcases List.mem_cons.mp hw with rfl | hw
        · exact Or.inr (List.mem_reverse.mp hc)
        · rcases ih [] w hw c hc with h | h
          · exact Or.inl (List.mem_cons_of_mem _ h)
          · simp at h
    · rw [if_neg hx] at hw
      rcases ih (x :: acc) w hw c hc with h | h
      · exact Or.inl (List.mem_cons_of_mem _ h)
      · rcases List.mem_cons.mp h with rfl | h
        · exact Or.inl (List.mem_cons_self _ _)
        · exact Or.inr h

/-- Given a whitespace-free accumulator, every word `wordsAux` produces is
non-empty and whitespace-free. -/
theorem wordsAux_ok (l : List Char) : ∀ acc, (∀ c ∈ acc, pySpace c = false) →
    ∀ w ∈ wordsAux l acc, w ≠ [] ∧ ∀ c ∈ w, pySpace c = false := by
  induction l with
  | nil =>
    intro acc hacc w hw
    simp only [wordsAux] at hw
    by_cases he : acc.isEmpty = true
    · simp [he] at hw
    · rw [if_neg he, List.mem_singleton] at hw
      subst hw
      refine ⟨?_, fun c hc => hacc c (List.mem_reverse.mp hc)⟩
      intro hnil
      exact he (by simp [List.reverse_eq_nil_iff.mp hnil])
  | cons x xs ih =>
    intro acc hacc w hw
    simp only [wordsAux] at hw
    by_cases hx : pySpace x = true
    · rw [if_pos hx] at hw
      by_cases he : acc.isEmpty = true
      · rw [if_pos he] at hw
        exact ih [] (by simp) w hw
      · rw [if_neg he] at hw
        rcases List.mem_cons.mp hw with rfl | hw
        · refine ⟨?_, fun c hc => hacc c (List.mem_reverse.mp hc)⟩
          intro hnil
          exact he (by simp [List.reverse_eq_nil_iff.mp hnil])
        · exact ih [] (by simp) w hw
    · rw [if_neg hx] at hw
      have hx' : pySpace x = false := by
        revert hx
        cases pySpace x <;> simp
      refine ih (x :: acc) ?_ w hw
      intro c hc
      rcases List.mem_cons.mp hc with rfl | hc
      · exact hx'
      · exact hacc c hc

/-- Characters of `joinWords` output are spaces or characters of the words. -/
theorem mem_joinWords : ∀ (ws : List (List Char)) (c : Char), c ∈ joinWords ws →
    c = ' ' ∨ ∃ w ∈ ws, c ∈ w := by
  intro ws
  induction ws with
  | nil => intro c hc; simp [joinWords] at hc
  | cons w ws2 ih =>
    intro c hc
    cases ws2 with
    | nil =>
      exact Or.inr ⟨w, List.mem_singleton.mpr rfl, by simpa [joinWords] using hc⟩
    | cons w2 ws3 =>
      simp only [joinWords] at hc
      rcases List.mem_append.mp hc with h | h
      · exact Or.inr ⟨w, List.mem_cons_self _ _, h⟩
      · rcases List.mem_cons.mp h with rfl | h
        · exact Or.inl rfl
        · rcases ih c h with h' | ⟨w', hw', hc'⟩
          · exact Or.inl h'
          · exact Or.inr ⟨w', List.mem_cons_of_mem _ hw', hc'⟩

/-- `joinWords` of a non-empty list of non-empty words is non-empty. -/
theorem joinWords_ne_nil : ∀ ws : List (List Char), ws ≠ [] → (∀ w ∈ ws, w ≠ []) →
    joinWords ws ≠ [] := by
  intro ws hne hws
  cases ws with
  | nil => exact absurd rfl hne
  | cons w ws2 =>
    cases ws2 with
    | nil => simpa [joinWords] using hws w (List.mem_singleton.mpr rfl)
    | cons w2 ws3 => simp [joinWords]

/-- A whitespace-free list does not start with a space. -/
theorem headNotSpace_of_nospace (l : List Char) (h : ∀ c ∈ l, pySpace c = false) :
    headNotSpace l = true := by
  cases l with
  | nil => rfl
  | cons c t =>
    simp only [headNotSpace]
    simp [not_space_char c (h c (List.mem_cons_self _ _))]

/-- The head of a non-empty list is unchanged by appending. -/
theorem headNotSpace_append (l l' : List Char) (hl : l ≠ []) :
    headNotSpace (l ++ l') = headNotSpace l := by
  cases l with
  | nil => exact absurd rfl hl
  | cons c t => rfl

/-- `joinWords` of non-empty whitespace-free words does not start with a
space. -/
theorem headNotSpace_joinWords : ∀ ws : List (List Char),
    (∀ w ∈ ws, w ≠ [] ∧ ∀ c ∈ w, pySpace c = false) →
    headNotSpace (joinWords ws) = true := by
  intro ws h
  cases ws with
  | nil => rfl
  | cons w ws2 =>
    obtain ⟨hne, hch⟩ := h w (List.mem_cons_self _ _)
    cases ws2 with
    | nil => simpa [joinWords] using headNotSpace_of_nospace w hch
    | cons w2 ws3 =>
      simp only [joinWords]
      rw [headNotSpace_append _ _ hne]
      exact headNotSpace_of_nospace w hch

/-- A whitespace-free list does not end with a space. -/
theorem lastNotSpace_of_nospace (l : List Char) (h : ∀ c ∈ l, pySpace c = false) :
    lastNotSpace l = true :=
  headNotSpace_of_nospace l.reverse (fun c hc => h c (List.mem_reverse.mp hc))

/-- `joinWords` of non-empty whitespace-free words does not end with a
space. -/
theorem lastNotSpace_joinWords : ∀ ws : List (List Char),
    (∀ w ∈ ws, w ≠ [] ∧ ∀ c ∈ w, pySpace c = false) →
    lastNotSpace (joinWords ws) = true := by
  intro ws
  induction ws with
  | nil => intro h; rfl
  | cons w ws2 ih =>
    intro h
    obtain ⟨hne, hch⟩ := h w (List.mem_cons_self _ _)
    cases ws2 with
    | nil => exact lastNotSpace_of_nospace w hch
    | cons w2 ws3 =>
      have hrest := fun w' hw' => h w' (List.mem_cons_of_mem _ hw')
      have hj := ih hrest
      have hjw_ne : joinWords (w2 :: ws3) ≠ [] :=
        joinWords_ne_nil _ (by simp) (fun w' hw' => (hrest w' hw').1)
      have hrev_ne : (joinWords (w2 :: ws3)).reverse ≠ [] := by simpa using hjw_ne
      simp only [lastNotSpace] at hj ⊢
      simp only [joinWords, List.reverse_append, List.reverse_cons, List.append_assoc]
      rw [headNotSpace_append _ _ hrev_ne]
      exact hj

/-- A list with no space character has no two consecutive spaces. -/
theorem noDouble_of_nospace : ∀ l : List Char, (∀ c ∈ l, (c == ' ') = false) →
    noDoubleSpace l = true := by
  intro l
  induction l with
  | nil => intro h; rfl
  | cons a t ih =>
    intro h
    cases t with
    | nil => rfl
    | cons b t2 =>
      simp only [noDoubleSpace, Bool.and_eq_true]
      exact ⟨by simp [h a (List.mem_cons_self _ _)],
        ih (fun c hc => h c (List.mem_cons_of_mem _ hc))⟩

/-- Prepending a space-free word to a space-headed tail preserves the
no-double-space property. -/
theorem noDouble_append_sep : ∀ (w j : List Char), (∀ c ∈ w, (c == ' ') = false) →
    noDoubleSpace (' ' :: j) = true → noDoubleSpace (w ++ ' ' :: j) = true := by
  intro w
  induction w with
  | nil => intro j _ hj; simpa using hj
  | cons a t ih =>
    intro j hw hj
    cases t with
    | nil =>
      simp only [List.cons_append, List.nil_append, noDoubleSpace, Bool.and_eq_true]
      exact ⟨by simp [hw a (List.mem_cons_self _ _)], hj⟩
    | cons b t2 =>
      simp only [List.cons_append, noDoubleSpace, Bool.and_eq_true]
      refine ⟨by simp [hw a (List.mem_cons_self _ _)], ?_⟩
      exact ih j (fun c hc => hw c (List.mem_cons_of_mem _ hc)) hj

/-- A space before a list that neither starts with a space nor contains a
double space gives no double space. -/
theorem noDouble_sep_head (j : List Char) (h1 : headNotSpace j = true)
    (h2 : noDoubleSpace j = true) : noDoubleSpace (' ' :: j) = true := by
  cases j with
  | nil => rfl
  | cons c t =>
    simp only [noDoubleSpace, Bool.and_eq_true]
    refine ⟨?_, h2⟩
    have hc : (c == ' ') = false := by
      revert h1
      simp only [headNotSpace]
      cases (c == ' ') <;> simp
    simp [hc]

/-- `joinWords` of non-empty whitespace-free words has no two consecutive
spaces. -/
theorem noDouble_joinWords : ∀ ws : List (List Char),
    (∀ w ∈ ws, w ≠ [] ∧ ∀ c ∈ w, pySpace c = false) →
    noDoubleSpace (joinWords ws) = true := by
  intro ws
  induction ws with
  | nil => intro h; rfl
  | cons w ws2 ih =>
    intro h
    obtain ⟨hne, hch⟩ := h w (List.mem_cons_self _ _)
    have hw' : ∀ c ∈ w, (c == ' ') = false := fun c hc => not_space_char c (hch c hc)
    cases ws2 with
    | nil => exact noDouble_of_nospace w hw'
    | cons w2 ws3 =>
      have hrest := fun w' hw'' => h w' (List.mem_cons_of_mem _ hw'')
      simp only [joinWords]
      exact noDouble_append_sep w _ hw'
        (noDouble_sep_head _ (headNotSpace_joinWords _ hrest) (ih hrest))

/-- Taking a front segment preserves the no-double-space property. -/
theorem noDouble_take : ∀ (l : List Char) (n : Nat), noDoubleSpace l = true →
    noDoubleSpace (l.take n) = true := by
  intro l
  induction l with
  | nil => intro n h; rw [List.take_nil]; exact h
  | cons a t ih =>
    intro n h
    cases n with
    | zero => rfl
    | succ m =>
      cases t with
      | nil => cases m <;> rfl
      | cons b t2 =>
        cases m with
        | zero => rfl
        | succ k =>
          simp only [List.take_succ_cons, noDoubleSpace, Bool.and_eq_true]
          simp only [noDoubleSpace, Bool.and_eq_true] at h
          exact ⟨h.1, ih (k + 1) h.2⟩

/-- Appending "..." preserves the no-double-space property. -/
theorem noDouble_append_dots : ∀ l : List Char, noDoubleSpace l = true →
    noDoubleSpace (l ++ ['.', '.', '.']) = true := by
  intro l
  induction l with
  | nil => intro h; decide
  | cons a t ih =>
    intro h
    cases t with
    | nil =>
      simp only [List.cons_append, List.nil_append, noDoubleSpace, Bool.and_eq_true]
      exact ⟨by simp, by decide⟩
    | cons b t2 =>
      simp only [List.cons_append, noDoubleSpace, Bool.and_eq_true]
      simp only [noDoubleSpace, Bool.and_eq_true] at h
      exact ⟨h.1, ih h.2⟩

/-- Truncating and appending "..." cannot create a leading space. -/
theorem headNotSpace_truncate (l : List Char) (n : Nat) (hl : headNotSpace l = true) :
    headNotSpace (l.take n ++ ['.', '.', '.']) = true := by
  cases l with
  | nil => rw [List.take_nil]; rfl
  | cons c t =>
    cases n with
    | zero => rfl
    | succ m =>
      simp only [List.take_succ_cons, List.cons_append, headNotSpace]
      simpa only [headNotSpace] using hl

/-- A list ending in "..." does not end with a space. -/
theorem lastNotSpace_append_dots (l : List Char) :
    lastNotSpace (l ++ ['.', '.', '.']) = true := by
  simp only [lastNotSpace]
  rw [List.reverse_append]
  rfl

/-- Every character the sanitiser keeps passes its character filter. -/
theorem mem_sanitizedCore (name : List Char) (c : Char) (hc : c ∈ sanitizedCore name) :
    keepChar c = true := by
  rcases mem_joinWords _ c hc with rfl | ⟨w, hw, hcw⟩
  · decide
  · rcases mem_wordsAux _ [] w hw c hcw with hcl | hcl
    · have h1 : c ∈ (name.filter keepChar).reverse.dropWhile pySpace :=
        List.mem_reverse.mp (by simpa [rstripChars] using hcl)
      have h2 : c ∈ (name.filter keepChar).reverse := (List.dropWhile_sublist _).subset h1
      exact (List.mem_filter.mp (List.mem_reverse.mp h2)).2
    · simp at hcl

/-- C10: the sanitised filename is at most 200 characters, contains only
alphanumerics and space/dot/underscore/hyphen, has no leading or trailing
space and no two consecutive spaces; when the sanitised core exceeds 200
characters the result is its first 197 characters plus "...". -/
theorem C10_sanitize_contract (name : List Char) :
    (sanitize_filename name).length ≤ 200 ∧
    (∀ c ∈ sanitize_filename name, keepChar c = true) ∧
    headNotSpace (sanitize_filename name) = true ∧
    lastNotSpace (sanitize_filename name) = true ∧
    noDoubleSpace (sanitize_filename name) = true ∧
    sanitize_filename name =
      (if 200 < (sanitizedCore name).length then
        (sanitizedCore name).take 197 ++ ['.', '.', '.']
      else sanitizedCore name) := by
  have hwords : ∀ w ∈ splitWords (rstripChars (name.filter keepChar)),
      w ≠ [] ∧ ∀ c ∈ w, pySpace c = false :=
    wordsAux_ok _ [] (by simp)
  have hhead : headNotSpace (sanitizedCore name) = true := headNotSpace_joinWords _ hwords
  have hlast : lastNotSpace (sanitizedCore name) = true := lastNotSpace_joinWords _ hwords
  have hnd : noDoubleSpace (sanitizedCore name) = true := noDouble_joinWords _ hwords
  by_cases hlen : 200 < (sanitizedCore name).length
  · have heq : sanitize_filename name = (sanitizedCore name).take 197 ++ ['.', '.', '.'] := by
      simp [sanitize_filename, hlen]
    refine ⟨?_, ?_, ?_, ?_, ?_, ?_⟩
    · rw [heq, List.length_append, List.length_take,
        show (['.', '.', '.'] : List Char).length = 3 from rfl]
      omega
    · intro c hc
      rw [heq] at hc
      rcases List.mem_append.mp hc with h | h
      · exact mem_sanitizedCore name c ((List.take_sublist _ _).subset h)
      · have : c = '.' := by simpa using h
        subst this
        decide
    · rw [heq]
      exact headNotSpace_truncate _ _ hhead
    · rw [heq]
      exact lastNotSpace_append_dots _
    · rw [heq]
      exact noDouble_append_dots _ (noDouble_take _ _ hnd)
    · rw [heq, if_pos hlen]
  · have heq : sanitize_filename name = sanitizedCore name := by
      simp [sanitize_filename, hlen]
    refine ⟨?_, ?_, ?_, ?_, ?_, ?_⟩
    · rw [heq]; omega
    · intro c hc
      rw [heq] at hc
      exact mem_sanitizedCore name c hc
    · rw [heq]; exact hhead
    · rw [heq]; exact hlast
    · rw [heq]; exact hnd
    · rw [heq, if_neg hlen]

end Instube
